import Mathlib

/-!
Verification of the detection decoder (`src/utils/parse_detections.py`) and the
motion/WebRTC stream controller (`src/scripts/motion_webrtc_monitor.py`,
`src/utils/motion_webrtc_trigger.py`) of the deepstream-triton project.

The Python/numpy code is shallowly embedded: numpy float arrays become lists of
rationals, exact rational arithmetic stands in for IEEE floats, and Python
exceptions become `Except String` results.  Where IEEE semantics is observable
(a division producing NaN/inf that is then compared), the embedding reproduces
the observable comparison result and the accompanying comment says so.
-/

/-- An axis-aligned box in corner format `[x1, y1, x2, y2]`, as used by `nms`. -/
structure BBox where
  x1 : ℚ
  y1 : ℚ
  x2 : ℚ
  y2 : ℚ
deriving DecidableEq

/-- `areas = (x2 - x1) * (y2 - y1)` (parse_detections.py line 133).  May be
negative for degenerate boxes; the source computes it as-is. -/
def boxArea (b : BBox) : ℚ := (b.x2 - b.x1) * (b.y2 - b.y1)

/-- Intersection area of two boxes (parse_detections.py lines 142-149):
clamped widths/heights `w = max(0, xx2-xx1)`, `h = max(0, yy2-yy1)`, `inter = w*h`. -/
def interArea (a b : BBox) : ℚ :=
  let xx1 := max a.x1 b.x1
  let yy1 := max a.y1 b.y1
  let xx2 := min a.x2 b.x2
  let yy2 := min a.y2 b.y2
  (max 0 (xx2 - xx1)) * (max 0 (yy2 - yy1))

/-- Union area `areas[i] + areas[j] - inter` (denominator on line 151). -/
def unionArea (a b : BBox) : ℚ := boxArea a + boxArea b - interArea a b

/-- Intersection over union, `inter / (areas[i] + areas[j] - inter)`
(parse_detections.py line 151), read in exact rational arithmetic (in `ℚ`,
division by a zero union gives `0`). -/
def iou (a b : BBox) : ℚ := interArea a b / unionArea a b

/-- The comparison `iou <= iou_threshold` of parse_detections.py line 154 under
numpy float semantics: when the union area is `0` the division yields NaN (for
`inter = 0`) or `+inf` (for `inter > 0`), and in either case the comparison is
False, so the candidate is dropped.  For a nonzero union the comparison is the
exact rational one.  Hence: `union ≠ 0 ∧ inter/union ≤ thr`. -/
def survives (a b : BBox) (thr : ℚ) : Bool :=
  unionArea a b ≠ 0 ∧ interArea a b / unionArea a b ≤ thr

/-! ### Descending sort by a rational key

`order = scores.argsort()[::-1]` (parse_detections.py line 134) orders the
candidate indices by descending score.  We embed it as an insertion sort; the
source's quicksort leaves tie order unspecified, the embedding fixes it
(ties come out in reversed input order, matching a stable ascending
sort followed by reversal). -/

/-- Insert `x` into a descending-sorted list: `x` goes before the first element
whose key is strictly smaller. -/
def insertDesc {α : Type} (key : α → ℚ) (x : α) : List α → List α
  | [] => [x]
  | y :: ys => if key y < key x then x :: y :: ys else y :: insertDesc key x ys

/-- Sort a list by descending key. -/
def sortDesc {α : Type} (key : α → ℚ) : List α → List α
  | [] => []
  | x :: xs => insertDesc key x (sortDesc key xs)

/-! ### Non-maximum suppression (parse_detections.py lines 116-157)

The greedy loop repeatedly takes the highest-scoring remaining candidate,
keeps it, and drops every remaining candidate whose `iou <= iou_threshold`
comparison with it is False.  The recursion is driven by a fuel argument equal
to the candidate count so the definition is structural (the worklist shrinks by
at least one each round, so the fuel never runs out). -/

/-- One greedy NMS pass over a worklist of candidates of any type `α` carrying
a box (`boxOf`).  With `α = ℕ` and `boxOf i = boxes[i]` this is literally the
`while order.size > 0` loop of the source. -/
def nmsGo {α : Type} (boxOf : α → BBox) (thr : ℚ) : ℕ → List α → List α
  | 0, _ => []
  | _ + 1, [] => []
  | fuel + 1, i :: rest =>
      i :: nmsGo boxOf thr fuel (rest.filter (fun j => survives (boxOf i) (boxOf j) thr))

/-- `scores.argsort()[::-1]`: the indices `0 … n-1` ordered by descending
score. -/
def argsortDesc (scores : List ℚ) : List ℕ :=
  sortDesc (fun i => scores.getD i 0) (List.range scores.length)

/-- `nms(boxes, scores, iou_threshold)` (parse_detections.py lines 116-157):
returns the list of kept indices. -/
def nms (boxes : List BBox) (scores : List ℚ) (iou_threshold : ℚ) : List ℕ :=
  let order := argsortDesc scores
  nmsGo (fun i => boxes.getD i ⟨0, 0, 0, 0⟩) iou_threshold order.length order

/-! ### Raw tensors and detection records

A 2-D numpy array (the model output with the leading batch axis of size 1
already dropped, i.e. `output[0]`) is embedded by its shape and an entry
function. -/

/-- A 2-D numpy array of rationals: `n` rows, `d` columns. -/
structure NpMat where
  n : ℕ
  d : ℕ
  ent : ℕ → ℕ → ℚ

/-- The rows of the matrix as lists. -/
def matRows (m : NpMat) : List (List ℚ) :=
  (List.range m.n).map (fun i => (List.range m.d).map (fun j => m.ent i j))

/-- The rows of the transposed matrix (`output[0].transpose()`,
parse_detections.py line 20). -/
def matRowsT (m : NpMat) : List (List ℚ) :=
  (List.range m.d).map (fun j => (List.range m.n).map (fun i => m.ent i j))

/-- A decoded detection: the dict
`{x1, y1, x2, y2, confidence, class_id}` built by both parsers. -/
structure Det where
  x1 : ℚ
  y1 : ℚ
  x2 : ℚ
  y2 : ℚ
  confidence : ℚ
  class_id : ℤ
deriving DecidableEq

/-- Python `int(...)` on a float: truncation toward zero. -/
def truncQ (q : ℚ) : ℤ := q.num.tdiv q.den

/-- Scan for `np.argmax`/`np.max` over one row of scores: `(index, value)` of
the first occurrence of the maximum.  `i` is the index of the head of the
remaining list, `best` the best seen so far. -/
def argmaxGo : ℕ → ℕ × ℚ → List ℚ → ℕ × ℚ
  | _, best, [] => best
  | i, best, v :: vs =>
      if best.2 < v then argmaxGo (i + 1) (i, v) vs else argmaxGo (i + 1) best vs

/-- `np.argmax` paired with `np.max` along one row.  numpy raises
`ValueError` on an empty score axis, embedded as `none`. -/
def argmaxWithMax : List ℚ → Option (ℕ × ℚ)
  | [] => none
  | x :: xs => some (argmaxGo 1 (0, x) xs)

/-- One anchor row of the dense-grid (YOLO) output after the per-row
reductions: `boxes = output[:, :4]`, `confidences = np.max(scores)`,
`class_ids = np.argmax(scores)` (parse_detections.py lines 23-28). -/
structure YoloCand where
  box4 : List ℚ
  confidence : ℚ
  class_id : ℕ
deriving DecidableEq

/-- Per-row split and reduction of the transposed YOLO output
(parse_detections.py lines 23-28).  A row with an empty score part
(`4 + num_classes ≤ 4` columns) makes `np.argmax` raise. -/
def yoloRowsInfo : List (List ℚ) → Except String (List YoloCand)
  | [] => .ok []
  | r :: rs =>
    match argmaxWithMax (r.drop 4) with
    | none => .error "attempt to get argmax of an empty sequence"
    | some kv =>
      match yoloRowsInfo rs with
      | .error e => .error e
      | .ok cs => .ok (⟨r.take 4, kv.2, kv.1⟩ :: cs)

/-- Center-to-corner conversion (parse_detections.py lines 40-46):
`x1 = cx - w/2, y1 = cy - h/2, x2 = cx + w/2, y2 = cy + h/2`. -/
def cornerBox (b : List ℚ) : BBox :=
  let cx := b.getD 0 0
  let cy := b.getD 1 0
  let w := b.getD 2 0
  let h := b.getD 3 0
  ⟨cx - w / 2, cy - h / 2, cx + w / 2, cy + h / 2⟩

/-- Optional rescale to the original image size (parse_detections.py lines
52-56 and 97-103): `x`-coordinates scale by `original_w / input_w`,
`y`-coordinates by `original_h / input_h`; shapes are `(height, width)`
pairs. -/
def scaleBox (input_shape : ℚ × ℚ) : Option (ℚ × ℚ) → BBox → BBox
  | none, b => b
  | some os, b =>
      let sx := os.2 / input_shape.2
      let sy := os.1 / input_shape.1
      ⟨b.x1 * sx, b.y1 * sy, b.x2 * sx, b.y2 * sy⟩

/-- The detection dict built for one kept YOLO candidate
(parse_detections.py lines 59-68). -/
def mkYoloDet (input_shape : ℚ × ℚ) (original_shape : Option (ℚ × ℚ))
    (c : YoloCand) : Det :=
  let b := scaleBox input_shape original_shape (cornerBox c.box4)
  ⟨b.x1, b.y1, b.x2, b.y2, c.confidence, (c.class_id : ℤ)⟩

/-- `parse_yolo_output` (parse_detections.py lines 7-70) on the unbatched
output `output[0]` of shape `[4 + num_classes, num_anchors]`: transpose, split
box/scores, per-row argmax, confidence filter (strict `>`), center-to-corner
conversion, NMS, optional rescale, detection list for the kept indices. -/
def parse_yolo_output (output : NpMat) (conf_threshold iou_threshold : ℚ)
    (input_shape : ℚ × ℚ) (original_shape : Option (ℚ × ℚ)) :
    Except String (List Det) :=
  match yoloRowsInfo (matRowsT output) with
  | .error e => .error e
  | .ok infos =>
    let cands := infos.filter (fun c => conf_threshold < c.confidence)
    if cands.length = 0 then .ok []
    else
      let boxes := cands.map (fun c => cornerBox c.box4)
      let confidences := cands.map (fun c => c.confidence)
      let indices := nms boxes confidences iou_threshold
      let scaled := boxes.map (scaleBox input_shape original_shape)
      .ok (indices.map (fun idx =>
        let b := scaled.getD idx ⟨0, 0, 0, 0⟩
        ⟨b.x1, b.y1, b.x2, b.y2, confidences.getD idx 0,
          ((cands.getD idx ⟨[], 0, 0⟩).class_id : ℤ)⟩))

/-- The detection dict built for one kept query row
(parse_detections.py lines 93-112), scaling applied when requested. -/
def detrBuild (input_shape : ℚ × ℚ) (original_shape : Option (ℚ × ℚ))
    (det : List ℚ) : Det :=
  let b := scaleBox input_shape original_shape
    ⟨det.getD 0 0, det.getD 1 0, det.getD 2 0, det.getD 3 0⟩
  ⟨b.x1, b.y1, b.x2, b.y2, det.getD 4 0, truncQ (det.getD 5 0)⟩

/-- The `for det in output` loop of `parse_detr_output` (parse_detections.py
lines 87-112): read `det[4]` (IndexError if the row is too short), skip the
row when `confidence < conf_threshold`, else read `det[5]` and emit the
detection.  A raised IndexError is an `error` result. -/
def detrGo (conf_threshold : ℚ) (input_shape : ℚ × ℚ)
    (original_shape : Option (ℚ × ℚ)) : List (List ℚ) → Except String (List Det)
  | [] => .ok []
  | det :: rest =>
    match det[4]? with
    | none => .error "index 4 is out of bounds"
    | some confidence =>
      if confidence < conf_threshold then
        detrGo conf_threshold input_shape original_shape rest
      else
        match det[5]? with
        | none => .error "index 5 is out of bounds"
        | some _ =>
          match detrGo conf_threshold input_shape original_shape rest with
          | .error e => .error e
          | .ok ds => .ok (detrBuild input_shape original_shape det :: ds)

/-- `parse_detr_output` (parse_detections.py lines 72-114) on the unbatched
output `output[0]` of shape `[num_queries, 6]`. -/
def parse_detr_output (output : NpMat) (conf_threshold : ℚ)
    (input_shape : ℚ × ℚ) (original_shape : Option (ℚ × ℚ)) :
    Except String (List Det) :=
  detrGo conf_threshold input_shape original_shape (matRows output)

/-- The pair carried through record-level NMS: the (unscaled) corner box used
for suppression together with the final detection dict. -/
def yoloPair (ish : ℚ × ℚ) (osh : Option (ℚ × ℚ)) (c : YoloCand) : BBox × Det :=
  (cornerBox c.box4, mkYoloDet ish osh c)

deriving instance DecidableEq for Except

/-- A concrete `[1, 6]` query-set tensor: one row
`[10, 20, 30, 40, 0.5, 7]`. -/
def detrSample : NpMat :=
  ⟨1, 6, fun _ j => ([10, 20, 30, 40, 1/2, 7] : List ℚ).getD j 0⟩

/-- A concrete `[5, 1]` dense-grid tensor (one anchor, one class):
`cx = cy = 1`, `w = h = 2`, class score `0.9`. -/
def yoloSample : NpMat :=
  ⟨5, 1, fun i _ => ([1, 1, 2, 2, 9/10] : List ℚ).getD i 0⟩

/-! ### The motion/WebRTC stream controller
(src/scripts/motion_webrtc_monitor.py, src/utils/motion_webrtc_trigger.py)

Module state is the pair of globals `last_motion_time` (initially `0`) and
`webrtc_enabled` (initially `False`).  Each processed event returns the new
state together with the list of `trigger_webrtc_stream(enable)` calls it made,
in order. -/

/-- The module-level mutable state of motion_webrtc_monitor.py
(lines 16-17). -/
structure MonitorState where
  last_motion_time : ℚ
  webrtc_enabled : Bool
deriving DecidableEq

/-- Initial state: `last_motion_time = 0`, `webrtc_enabled = False`. -/
def initState : MonitorState := ⟨0, false⟩

/-- The decoded MQTT payload as seen by `on_message`: either the
`json.loads`/`decode` call raised (`invalid`), or it produced a record whose
`detections` field is present (`record (some l)`, contents irrelevant beyond
the count) or absent (`record none`). -/
inductive MqttPayload where
  | invalid : MqttPayload
  | record : Option (List Unit) → MqttPayload
deriving DecidableEq

/-- `MOTION_THRESHOLD = 1` (motion_webrtc_monitor.py line 13). -/
def MOTION_THRESHOLD : ℕ := 1

/-- `MOTION_TIMEOUT = 5` (motion_webrtc_monitor.py line 14). -/
def MOTION_TIMEOUT : ℚ := 5

/-- `is_motion_detected` (motion_webrtc_trigger.py lines 13-15):
`len(detections) >= threshold`. -/
def is_motion_detected (detections : List Unit) (threshold : ℕ) : Bool :=
  threshold ≤ detections.length

/-- `on_message` (motion_webrtc_monitor.py lines 19-36), with the constants
`MOTION_THRESHOLD`/`MOTION_TIMEOUT` and the `time.time()` reading passed as
parameters.  A missing `detections` field is replaced by `[]` through
`payload.get('detections', [])`; a raised decode error is caught, printed and
leaves the state alone.  The second component lists the
`trigger_webrtc_stream` calls made. -/
def on_message (threshold : ℕ) (timeout : ℚ) (now : ℚ) (msg : MqttPayload)
    (s : MonitorState) : MonitorState × List Bool :=
  match msg with
  | .invalid => (s, [])
  | .record dets =>
    let detections := dets.getD []
    if is_motion_detected detections threshold then
      if s.webrtc_enabled then ({ s with last_motion_time := now }, [])
      else ({ last_motion_time := now, webrtc_enabled := true }, [true])
    else
      if s.webrtc_enabled ∧ timeout < now - s.last_motion_time then
        ({ s with webrtc_enabled := false }, [false])
      else (s, [])

/-- One iteration of the `while True: time.sleep(1)` loop of `main`
(motion_webrtc_monitor.py lines 46-47): it only sleeps — it reads no state and
makes no `trigger_webrtc_stream` call. -/
def main_loop_tick (s : MonitorState) : MonitorState × List Bool := (s, [])

/-- The `KeyboardInterrupt` shutdown path of `main`
(motion_webrtc_monitor.py lines 48-51): print, `loop_stop()`, `disconnect()`.
It neither reads the motion state nor makes any `trigger_webrtc_stream`
call. -/
def main_shutdown (s : MonitorState) : MonitorState × List Bool := (s, [])

/-- An event delivered to the running monitor: an MQTT message processed by
`on_message` at a given time, or one pass of the main loop (a tick). -/
inductive MEvent where
  | msg : ℚ → MqttPayload → MEvent
  | tick : ℚ → MEvent

/-- Dispatch one event. -/
def stepEvent (threshold : ℕ) (timeout : ℚ) (e : MEvent) (s : MonitorState) :
    MonitorState × List Bool :=
  match e with
  | .msg now p => on_message threshold timeout now p s
  | .tick _ => main_loop_tick s

/-- Run a sequence of events, collecting all toggle calls in order. -/
def runEvents (threshold : ℕ) (timeout : ℚ) (s : MonitorState) :
    List MEvent → MonitorState × List Bool
  | [] => (s, [])
  | e :: es =>
    let r := stepEvent threshold timeout e s
    let r2 := runEvents threshold timeout r.1 es
    (r2.1, r.2 ++ r2.2)

/-- Run a sequence of timed MQTT messages, collecting all toggle calls in
order. -/
def runMsgs (threshold : ℕ) (timeout : ℚ) (s : MonitorState) :
    List (ℚ × MqttPayload) → MonitorState × List Bool
  | [] => (s, [])
  | (now, p) :: rest =>
    let r := on_message threshold timeout now p s
    let r2 := runMsgs threshold timeout r.1 rest
    (r2.1, r.2 ++ r2.2)

/-- `altAfter e calls` holds when, starting from enabled-state `e`, the toggle
calls strictly alternate (each call carries the negation of the state it was
made in). -/
def altAfter : Bool → List Bool → Bool
  | _, [] => true
  | e, c :: cs => (c == ! e) && altAfter c cs

theorem insertDesc_perm {α : Type} (key : α → ℚ) (x : α) (l : List α) :
    (insertDesc key x l).Perm (x :: l) := by
  induction l with
  | nil => simp [insertDesc]
  | cons y ys ih =>
    simp only [insertDesc]
    by_cases h : key y < key x
    · simp [h]
    · simp only [h, if_false]
      exact ((ih.cons y).trans (List.Perm.swap x y ys))

theorem sortDesc_perm {α : Type} (key : α → ℚ) (l : List α) :
    (sortDesc key l).Perm l := by
  induction l with
  | nil => simp [sortDesc]
  | cons x xs ih =>
    exact (insertDesc_perm key x (sortDesc key xs)).trans (ih.cons x)

theorem mem_sortDesc {α : Type} (key : α → ℚ) {l : List α} {a : α} :
    a ∈ sortDesc key l ↔ a ∈ l :=
  (sortDesc_perm key l).mem_iff

/-- Inserting an element whose key is strictly above every key of `B` walks
through `A` only. -/
theorem insertDesc_append_high {α : Type} (key : α → ℚ) (x : α) (A B : List α)
    (hB : ∀ b ∈ B, key b < key x) :
    insertDesc key x (A ++ B) = insertDesc key x A ++ B := by
  induction A with
  | nil =>
    cases B with
    | nil => simp [insertDesc]
    | cons b bs =>
      have := hB b (by simp)
      simp [insertDesc, this]
  | cons a as ih =>
    simp only [List.cons_append, insertDesc]
    by_cases h : key a < key x
    · simp [h]
    · simp [h, ih]

/-- Inserting an element whose key is strictly below every key of `A` leaves
`A` untouched. -/
theorem insertDesc_append_low {α : Type} (key : α → ℚ) (x : α) (A B : List α)
    (hA : ∀ a ∈ A, key x < key a) :
    insertDesc key x (A ++ B) = A ++ insertDesc key x B := by
  induction A with
  | nil => simp
  | cons a as ih =>
    have hax : key x < key a := hA a (by simp)
    have hax' : ¬ key a < key x := not_lt_of_gt hax
    simp only [List.cons_append, insertDesc, hax', if_false]
    rw [List.append_eq, ih (fun a ha => hA a (by simp [ha]))]

/-- Sorting a list whose `P`-elements all have strictly larger keys than its
non-`P`-elements splits as the sort of the `P`-part followed by the sort of the
rest. -/
theorem sortDesc_filter_split {α : Type} (key : α → ℚ) (P : α → Bool)
    (l : List α)
    (hsep : ∀ a ∈ l, ∀ b ∈ l, P a = true → P b = false → key b < key a) :
    sortDesc key l = sortDesc key (l.filter P) ++ sortDesc key (l.filter (fun a => ! P a)) := by
  induction l with
  | nil => simp [sortDesc]
  | cons x xs ih =>
    have hsep' : ∀ a ∈ xs, ∀ b ∈ xs, P a = true → P b = false → key b < key a :=
      fun a ha b hb => hsep a (by simp [ha]) b (by simp [hb])
    by_cases hx : P x = true
    · have hlow : ∀ b ∈ sortDesc key (xs.filter (fun a => ! P a)), key b < key x := by
        intro b hb
        rw [mem_sortDesc] at hb
        have hb' := List.of_mem_filter hb
        have hbmem := List.mem_of_mem_filter hb
        exact hsep x (by simp) b (by simp [hbmem]) hx (by simpa using hb')
      simp only [sortDesc, List.filter_cons, hx, if_true, Bool.not_true]
      rw [ih hsep']
      rw [insertDesc_append_high key x _ _ hlow]
      simp [sortDesc]
    · have hx' : P x = false := by simpa using hx
      have hhigh : ∀ a ∈ sortDesc key (xs.filter P), key x < key a := by
        intro a ha
        rw [mem_sortDesc] at ha
        have ha' := List.of_mem_filter ha
        have hamem := List.mem_of_mem_filter ha
        exact hsep a (by simp [hamem]) x (by simp) ha' hx'
      simp only [sortDesc, List.filter_cons, hx', Bool.not_false]
      rw [ih hsep']
      rw [insertDesc_append_low key x _ _ hhigh]
      simp [sortDesc]

/-- `insertDesc` commutes with a map that preserves keys (key agreement is
needed for the inserted element and all list members). -/
theorem insertDesc_map {α β : Type} (keyA : α → ℚ) (keyB : β → ℚ) (g : α → β)
    (x : α) (l : List α) (hx : keyB (g x) = keyA x)
    (hl : ∀ a ∈ l, keyB (g a) = keyA a) :
    (insertDesc keyA x l).map g = insertDesc keyB (g x) (l.map g) := by
  induction l with
  | nil => simp [insertDesc]
  | cons y ys ih =>
    have hy : keyB (g y) = keyA y := hl y (by simp)
    simp only [insertDesc, List.map_cons, hx, hy]
    by_cases h : keyA y < keyA x
    · simp [h]
    · simp only [h, if_false, List.map_cons]
      rw [ih (fun a ha => hl a (by simp [ha]))]

/-- `sortDesc` commutes with a key-preserving map. -/
theorem sortDesc_map {α β : Type} (keyA : α → ℚ) (keyB : β → ℚ) (g : α → β)
    (l : List α) (hl : ∀ a ∈ l, keyB (g a) = keyA a) :
    (sortDesc keyA l).map g = sortDesc keyB (l.map g) := by
  induction l with
  | nil => simp [sortDesc]
  | cons x xs ih =>
    simp only [sortDesc, List.map_cons]
    rw [insertDesc_map keyA keyB g x (sortDesc keyA xs) (hl x (by simp))
      (fun a ha => hl a (by simp [(mem_sortDesc keyA).1 ha]))]
    rw [ih (fun a ha => hl a (by simp [ha]))]

example : nms [⟨0, 0, 1, 1⟩, ⟨10, 10, 11, 11⟩] [9/10, 4/5] (9/20) = [0, 1] := by
  norm_num [nms, nmsGo, argsortDesc, sortDesc, insertDesc, survives, interArea,
    unionArea, boxArea, List.range_succ]

example : nms [⟨0, 0, 10, 10⟩, ⟨0, 0, 10, 11⟩] [1/2, 9/10] (9/20) = [1] := by
  norm_num [nms, nmsGo, argsortDesc, sortDesc, insertDesc, survives, interArea,
    unionArea, boxArea, List.range_succ]

/-- The fuel argument of `nmsGo` is irrelevant once it is at least the worklist
length (the worklist shrinks by at least one per round). -/
theorem nmsGo_fuel_congr {α : Type} (boxOf : α → BBox) (thr : ℚ) :
    ∀ (f g : ℕ) (l : List α), l.length ≤ f → l.length ≤ g →
      nmsGo boxOf thr f l = nmsGo boxOf thr g l
  | 0, 0, _, _, _ => rfl
  | 0, _ + 1, l, hf, _ => by
    have : l = [] := List.eq_nil_of_length_eq_zero (Nat.le_zero.1 hf)
    subst this
    rfl
  | _ + 1, 0, l, _, hg => by
    have : l = [] := List.eq_nil_of_length_eq_zero (Nat.le_zero.1 hg)
    subst this
    rfl
  | _ + 1, _ + 1, [], _, _ => rfl
  | f + 1, g + 1, i :: rest, hf, hg => by
    simp only [nmsGo, List.cons.injEq, true_and]
    have hlen : (rest.filter (fun j => survives (boxOf i) (boxOf j) thr)).length ≤ rest.length :=
      List.length_filter_le _ _
    have hrf : rest.length ≤ f := by simpa using hf
    have hrg : rest.length ≤ g := by simpa using hg
    exact nmsGo_fuel_congr boxOf thr f g _ (le_trans hlen hrf) (le_trans hlen hrg)
  termination_by f g l => l.length

/-- Everything `nmsGo` keeps comes from its worklist. -/
theorem nmsGo_subset {α : Type} (boxOf : α → BBox) (thr : ℚ) :
    ∀ (f : ℕ) (l : List α), nmsGo boxOf thr f l ⊆ l := by
  intro f
  induction f with
  | zero => intro l; simp [nmsGo]
  | succ f ih =>
    intro l
    cases l with
    | nil => simp [nmsGo]
    | cons i rest =>
      intro a ha
      simp only [nmsGo, List.mem_cons] at ha
      rcases ha with rfl | ha
      · exact List.mem_cons_self _ _
      · exact List.mem_cons_of_mem _
          (List.mem_of_mem_filter (ih _ ha))

/-- Any two distinct kept candidates passed the survival comparison one way or
the other: the later one was still in the worklist when the earlier one was
kept, so it survived the filter against the earlier one's box. -/
theorem nmsGo_pairwise {α : Type} (boxOf : α → BBox) (thr : ℚ) :
    ∀ (f : ℕ) (l : List α) (x y : α), x ∈ nmsGo boxOf thr f l →
      y ∈ nmsGo boxOf thr f l → x ≠ y →
      survives (boxOf x) (boxOf y) thr = true ∨ survives (boxOf y) (boxOf x) thr = true := by
  intro f
  induction f with
  | zero => intro l x y hx; simp [nmsGo] at hx
  | succ f ih =>
    intro l x y hx hy hxy
    cases l with
    | nil => simp [nmsGo] at hx
    | cons i rest =>
      simp only [nmsGo, List.mem_cons] at hx hy
      rcases hx with rfl | hx
      · rcases hy with rfl | hy
        · exact absurd rfl hxy
        · have := List.of_mem_filter (nmsGo_subset boxOf thr f _ hy)
          exact Or.inl this
      · rcases hy with rfl | hy
        · have := List.of_mem_filter (nmsGo_subset boxOf thr f _ hx)
          exact Or.inr this
        · exact ih _ x y hx hy hxy

/-- Appending lower candidates after the worklist leaves the kept prefix
unchanged: greedy NMS of `l ++ l'` starts with greedy NMS of `l`. -/
theorem nmsGo_append {α : Type} (boxOf : α → BBox) (thr : ℚ) :
    ∀ (l l' : List α), ∃ tail,
      nmsGo boxOf thr (l ++ l').length (l ++ l') = nmsGo boxOf thr l.length l ++ tail
  | [], l' => ⟨nmsGo boxOf thr l'.length l', by simp [nmsGo]⟩
  | i :: rest, l' => by
    have hfilter : ((rest ++ l').filter (fun j => survives (boxOf i) (boxOf j) thr)) =
        rest.filter (fun j => survives (boxOf i) (boxOf j) thr) ++
          l'.filter (fun j => survives (boxOf i) (boxOf j) thr) := by
      rw [List.filter_append]
    obtain ⟨tail, htail⟩ := nmsGo_append boxOf thr
      (rest.filter (fun j => survives (boxOf i) (boxOf j) thr))
      (l'.filter (fun j => survives (boxOf i) (boxOf j) thr))
    refine ⟨tail, ?_⟩
    simp only [List.cons_append, nmsGo, List.length_cons, List.append_eq]
    rw [hfilter]
    have h1 : nmsGo boxOf thr (rest.length + l'.length)
        (rest.filter (fun j => survives (boxOf i) (boxOf j) thr) ++
          l'.filter (fun j => survives (boxOf i) (boxOf j) thr)) =
        nmsGo boxOf thr (rest.filter (fun j => survives (boxOf i) (boxOf j) thr) ++
          l'.filter (fun j => survives (boxOf i) (boxOf j) thr)).length
        (rest.filter (fun j => survives (boxOf i) (boxOf j) thr) ++
          l'.filter (fun j => survives (boxOf i) (boxOf j) thr)) := by
      apply nmsGo_fuel_congr
      · rw [List.length_append]
        exact Nat.add_le_add (List.length_filter_le _ _) (List.length_filter_le _ _)
      · exact le_refl _
    have h2 : nmsGo boxOf thr rest.length
        (rest.filter (fun j => survives (boxOf i) (boxOf j) thr)) =
        nmsGo boxOf thr (rest.filter (fun j => survives (boxOf i) (boxOf j) thr)).length
        (rest.filter (fun j => survives (boxOf i) (boxOf j) thr)) := by
      apply nmsGo_fuel_congr
      · exact List.length_filter_le _ _
      · exact le_refl _
    have hla : (rest ++ l').length = rest.length + l'.length := List.length_append rest l'
    rw [hla, h1, htail, h2]
  termination_by l _ => l.length
  decreasing_by
    simp only [List.length_cons]
    exact Nat.lt_succ_of_le (List.length_filter_le _ _)

/-- `nmsGo` commutes with a box-preserving map of the candidates. -/
theorem nmsGo_map {α β : Type} (boxA : α → BBox) (boxB : β → BBox) (g : α → β)
    (thr : ℚ) (hbox : ∀ a, boxB (g a) = boxA a) :
    ∀ (f : ℕ) (l : List α),
      (nmsGo boxA thr f l).map g = nmsGo boxB thr f (l.map g) := by
  intro f
  induction f with
  | zero => intro l; simp [nmsGo]
  | succ f ih =>
    intro l
    cases l with
    | nil => simp [nmsGo]
    | cons i rest =>
      simp only [nmsGo, List.map_cons, List.cons.injEq, true_and]
      have hp : (fun j => survives (boxA i) (boxA j) thr) =
          ((fun j => survives (boxB (g i)) (boxB j) thr) ∘ g) := by
        funext j
        simp [Function.comp, hbox]
      rw [ih, List.filter_map, ← hp]

/-- IoU is symmetric. -/
theorem interArea_comm (a b : BBox) : interArea a b = interArea b a := by
  simp only [interArea, max_comm a.x1 b.x1, max_comm a.y1 b.y1,
    min_comm a.x2 b.x2, min_comm a.y2 b.y2]

theorem unionArea_comm (a b : BBox) : unionArea a b = unionArea b a := by
  simp only [unionArea, interArea_comm a b]
  ring

theorem iou_comm (a b : BBox) : iou a b = iou b a := by
  simp only [iou, interArea_comm a b, unionArea_comm a b]

/-- A surviving comparison bounds the exact IoU. -/
theorem iou_le_of_survives {a b : BBox} {thr : ℚ} (h : survives a b thr = true) :
    iou a b ≤ thr := by
  simp only [survives, Bool.and_eq_true, decide_eq_true_eq] at h
  · simpa [iou] using h.2

example :
    runEvents 1 5 initState [.msg 0 (.record (some [()])), .tick 6] =
      (⟨0, true⟩, [true]) := by
  norm_num [runEvents, stepEvent, on_message, is_motion_detected, initState,
    main_loop_tick]

/-! ### Controller lemmas -/

/-- Each processed message either makes no toggle call and keeps the enabled
flag, or makes exactly one call carrying the negation of the current flag and
flips the flag to it. -/
theorem on_message_toggle_spec (threshold : ℕ) (timeout now : ℚ)
    (p : MqttPayload) (s : MonitorState) :
    ((on_message threshold timeout now p s).2 = [] ∧
      (on_message threshold timeout now p s).1.webrtc_enabled = s.webrtc_enabled) ∨
    ((on_message threshold timeout now p s).2 = [! s.webrtc_enabled] ∧
      (on_message threshold timeout now p s).1.webrtc_enabled = ! s.webrtc_enabled) := by
  cases p with
  | invalid => exact Or.inl ⟨rfl, rfl⟩
  | record dets =>
    simp only [on_message]
    by_cases hq : is_motion_detected (dets.getD []) threshold = true
    · cases he : s.webrtc_enabled with
      | true => simp [hq, he]
      | false => simp [hq, he]
    · have hq' : is_motion_detected (dets.getD []) threshold = false := by
        simpa using hq
      by_cases hc : s.webrtc_enabled = true ∧ timeout < now - s.last_motion_time
      · right
        simp [hq', hc, hc.1]
      · left
        simp [hq', hc]

/-- From any state, the toggle calls made over a message sequence strictly
alternate starting from the current enabled flag. -/
theorem runMsgs_altAfter (threshold : ℕ) (timeout : ℚ) :
    ∀ (msgs : List (ℚ × MqttPayload)) (s : MonitorState),
      altAfter s.webrtc_enabled (runMsgs threshold timeout s msgs).2 = true := by
  intro msgs
  induction msgs with
  | nil => intro s; simp [runMsgs, altAfter]
  | cons m rest ih =>
    intro s
    obtain ⟨now, p⟩ := m
    simp only [runMsgs]
    rcases on_message_toggle_spec threshold timeout now p s with ⟨h2, h1⟩ | ⟨h2, h1⟩
    · rw [h2, List.nil_append, ← h1]
      exact ih _
    · rw [h2, List.cons_append, List.nil_append]
      simp only [altAfter, beq_self_eq_true, Bool.true_and]
      rw [← h1]
      exact ih _

/-- While `Active` (enabled), a run of qualifying observations makes no toggle
call and tracks the latest observation timestamp. -/
theorem runMsgs_qualifying_active (threshold : ℕ) (timeout : ℚ) :
    ∀ (obs : List (ℚ × List Unit)) (s : MonitorState),
      s.webrtc_enabled = true →
      (∀ o ∈ obs, is_motion_detected o.2 threshold = true) →
      runMsgs threshold timeout s
          (obs.map (fun o => (o.1, MqttPayload.record (some o.2)))) =
        (⟨(obs.map Prod.fst).getLastD s.last_motion_time, true⟩, []) := by
  intro obs
  induction obs with
  | nil =>
    intro s hs _
    cases s with
    | mk last en =>
      simp only [MonitorState.webrtc_enabled] at hs
      subst hs
      simp [runMsgs]
  | cons o rest ih =>
    intro s hs hq
    have hqo : is_motion_detected o.2 threshold = true := hq o (by simp)
    simp only [List.map_cons, runMsgs, on_message, Option.getD_some, hqo, if_true, hs]
    rw [ih ⟨o.1, true⟩ rfl (fun x hx => hq x (by simp [hx]))]
    rw [List.getLastD_cons]
    rfl

/-! ### Claim theorems -/

/-- C1: every index kept by `nms` is one of the input indices, and for every
pair of distinct kept indices the IoU of their boxes is at most
`iou_threshold`. -/
theorem nms_output_subset_and_pairwise_iou_le (boxes : List BBox)
    (scores : List ℚ) (iou_threshold : ℚ) :
    (∀ i ∈ nms boxes scores iou_threshold, i < scores.length) ∧
    (∀ i ∈ nms boxes scores iou_threshold, ∀ j ∈ nms boxes scores iou_threshold,
      i ≠ j →
      iou (boxes.getD i ⟨0, 0, 0, 0⟩) (boxes.getD j ⟨0, 0, 0, 0⟩) ≤ iou_threshold) := by
  constructor
  · intro i hi
    have h1 : i ∈ argsortDesc scores :=
      nmsGo_subset (fun i => boxes.getD i ⟨0, 0, 0, 0⟩) iou_threshold _ _ hi
    have h2 : i ∈ List.range scores.length := by
      have := (mem_sortDesc (fun i => scores.getD i 0)).1 h1
      simpa using this
    simpa using h2
  · intro i hi j hj hij
    rcases nmsGo_pairwise (fun i => boxes.getD i ⟨0, 0, 0, 0⟩) iou_threshold _ _
        i j hi hj hij with h | h
    · exact iou_le_of_survives h
    · rw [iou_comm]
      exact iou_le_of_survives h

/-- Witness for C1 at boxes `[0,0,1,1]`, `[10,10,11,11]` with scores
`0.9, 0.8` and `iou_threshold = 0.45`: both boxes are kept and their IoU is
bounded. -/
theorem nms_output_subset_and_pairwise_iou_le_witness :
    iou ⟨0, 0, 1, 1⟩ ⟨10, 10, 11, 11⟩ ≤ 9/20 :=
  (nms_output_subset_and_pairwise_iou_le [⟨0, 0, 1, 1⟩, ⟨10, 10, 11, 11⟩]
      [9/10, 4/5] (9/20)).2
    0 (by with_unfolding_all decide) 1 (by with_unfolding_all decide)
    (by decide)

/-- C6 (the code diverges from the claim): on two degenerate boxes whose union
area is zero, numpy evaluates `0/0`, the NaN comparison `iou <= threshold` is
False, and the second box is suppressed — keep list `[0]`.  Under the claimed
semantics (IoU defined as 0 when the union is zero) both boxes would satisfy
`IoU = 0 ≤ 0.45` and the keep list would be `[0, 1]`. -/
theorem nms_zero_union_pair_suppressed :
    nms [⟨0, 0, 0, 0⟩, ⟨0, 0, 0, 0⟩] [9/10, 4/5] (9/20) = [0] := by
  with_unfolding_all decide

/-- C2 (the code diverges from the claim): with `MOTION_THRESHOLD = 1` and
`MOTION_TIMEOUT = 5`, a qualifying observation at `t = 0` makes the controller
Active, and a main-loop tick at `t = 6` — total silence on the observation
channel — leaves `webrtc_enabled = True` and emits no `toggle(false)`: the
main loop only sleeps, so the timeout cannot expire during silence.  The claim
expects the tick to transition to Idle with one `toggle(false)`. -/
theorem tick_during_silence_leaves_stream_enabled :
    runEvents MOTION_THRESHOLD MOTION_TIMEOUT initState
      [.msg 0 (.record (some [()])), .tick 6] = (⟨0, true⟩, [true]) := by
  with_unfolding_all decide

/-- C3 counterexample: a record lacking the `detections` field, delivered at
`t = 6` to the Active state `⟨last_motion_time = 0, enabled⟩` with timeout 5,
does NOT leave the state unchanged with no toggle call — it disables the
stream (the missing field defaults to `[]`, which is a non-qualifying
observation, and the timeout has expired). -/
theorem missing_detections_counterexample :
    ¬ ((on_message MOTION_THRESHOLD MOTION_TIMEOUT 6
          (.record none) ⟨0, true⟩).1 = (⟨0, true⟩ : MonitorState) ∧
       (on_message MOTION_THRESHOLD MOTION_TIMEOUT 6
          (.record none) ⟨0, true⟩).2 = []) := by
  with_unfolding_all decide

/-- C3 amended: a record whose payload lacks the `detections` field is not a
parse failure — `payload.get('detections', [])` turns it into an observation
with zero detections, which is processed normally (and can disable the stream
once the timeout has expired).  Only a record whose JSON decoding raises is
logged and skipped with no state change and no toggle call. -/
theorem missing_detections_treated_as_zero_detections (threshold : ℕ)
    (timeout now : ℚ) (s : MonitorState) :
    on_message threshold timeout now (.record none) s =
      on_message threshold timeout now (.record (some [])) s ∧
    on_message threshold timeout now .invalid s = (s, []) :=
  ⟨rfl, rfl⟩

/-- C7: starting from the initial (Idle) state, a nonempty run of qualifying
observations invokes `toggle(true)` exactly once — on the first observation —
and each later qualifying observation only refreshes `last_motion_time` to its
own timestamp (the final state records the last observation's timestamp). -/
theorem qualifying_stream_invokes_enable_once (threshold : ℕ) (timeout : ℚ)
    (obs : List (ℚ × List Unit)) (hne : obs ≠ [])
    (hq : ∀ o ∈ obs, is_motion_detected o.2 threshold = true) :
    runMsgs threshold timeout initState
        (obs.map (fun o => (o.1, MqttPayload.record (some o.2)))) =
      (⟨(obs.map Prod.fst).getLastD 0, true⟩, [true]) := by
  cases obs with
  | nil => exact absurd rfl hne
  | cons o rest =>
    have hqo : is_motion_detected o.2 threshold = true := hq o (by simp)
    simp only [List.map_cons, runMsgs, on_message, Option.getD_some, hqo, if_true,
      initState, MonitorState.webrtc_enabled, Bool.false_eq_true, if_false]
    rw [runMsgs_qualifying_active threshold timeout rest ⟨o.1, true⟩ rfl
      (fun x hx => hq x (by simp [hx]))]
    rw [List.getLastD_cons]
    rfl

/-- Witness for C7: three qualifying observations at `t = 0, 1, 2` with
`threshold = 1`, `timeout = 5` yield exactly one `toggle(true)` and final
`last_motion_time = 2`. -/
theorem qualifying_stream_invokes_enable_once_witness :
    runMsgs 1 5 initState
        ([((0 : ℚ), [()]), (1, [()]), (2, [()])].map
          (fun o => (o.1, MqttPayload.record (some o.2)))) =
      (⟨2, true⟩, [true]) := by
  have h := qualifying_stream_invokes_enable_once 1 5
    [((0 : ℚ), [()]), (1, [()]), (2, [()])] (by decide)
    (by intro o ho; fin_cases ho <;> decide)
  rw [h]
  rfl

/-- C9 counterexample: stopping the controller while Active
(`webrtc_enabled = true`) makes no `toggle(false)` call — the
`KeyboardInterrupt` handler only stops the MQTT loop and disconnects, so the
call list is `[]`, not the claimed single disable. -/
theorem shutdown_no_disable_counterexample :
    (main_shutdown ⟨0, true⟩).2 ≠ [false] := by
  with_unfolding_all decide

/-- C9 amended: on explicit stop the controller releases its resources
without making any toggle call, whatever the current phase — in particular an
Active stream stays enabled after shutdown. -/
theorem shutdown_makes_no_toggle_calls (s : MonitorState) :
    main_shutdown s = (s, []) := rfl

/-- C10: `toggle(true)` is only ever emitted with `webrtc_enabled = False` and
`toggle(false)` only with `webrtc_enabled = True`; consequently, over any
message sequence from the initial state the emitted toggle calls strictly
alternate and the first one, if any, is an enable. -/
theorem toggle_calls_strictly_alternate (threshold : ℕ) (timeout : ℚ) :
    (∀ (now : ℚ) (p : MqttPayload) (s : MonitorState),
      ((on_message threshold timeout now p s).2 = [true] →
        s.webrtc_enabled = false) ∧
      ((on_message threshold timeout now p s).2 = [false] →
        s.webrtc_enabled = true)) ∧
    (∀ msgs : List (ℚ × MqttPayload),
      altAfter false (runMsgs threshold timeout initState msgs).2 = true) := by
  constructor
  · intro now p s
    constructor
    · intro h
      rcases on_message_toggle_spec threshold timeout now p s with ⟨h2, _⟩ | ⟨h2, _⟩
      · rw [h] at h2; cases h2
      · rw [h] at h2
        have : (true : Bool) = ! s.webrtc_enabled := by
          have := List.head_eq_of_cons_eq h2.symm
          exact this.symm
        cases he : s.webrtc_enabled
        · rfl
        · rw [he] at this; cases this
    · intro h
      rcases on_message_toggle_spec threshold timeout now p s with ⟨h2, _⟩ | ⟨h2, _⟩
      · rw [h] at h2; cases h2
      · rw [h] at h2
        have : (false : Bool) = ! s.webrtc_enabled := by
          have := List.head_eq_of_cons_eq h2.symm
          exact this.symm
        cases he : s.webrtc_enabled
        · rw [he] at this; cases this
        · rfl
  · intro msgs
    have := runMsgs_altAfter threshold timeout msgs initState
    simpa [initState] using this

/-- Witness for C10: instantiating the per-call condition at a concrete
enabling message shows the initial state is disabled. -/
theorem toggle_calls_strictly_alternate_witness :
    MonitorState.webrtc_enabled initState = false :=
  ((toggle_calls_strictly_alternate 1 5).1 0 (.record (some [()])) initState).1
    (by with_unfolding_all decide)

/-! ### List access helpers -/

theorem getD_map_of_lt {α β : Type} (f : α → β) (d' : β) (d : α) :
    ∀ (l : List α) (i : ℕ), i < l.length → (l.map f).getD i d' = f (l.getD i d)
  | a :: l, 0, _ => rfl
  | a :: l, i + 1, h => getD_map_of_lt f d' d l i (by simpa using h)
  | [], i, h => absurd h (by simp)

theorem map_getD_range {α : Type} (d : α) (l : List α) :
    (List.range l.length).map (fun i => l.getD i d) = l := by
  induction l with
  | nil => simp
  | cons a tl ih =>
    rw [List.length_cons, List.range_succ_eq_map, List.map_cons, List.map_map]
    show (a :: tl).getD 0 d ::
        List.map ((fun i => (a :: tl).getD i d) ∘ Nat.succ) (List.range tl.length) = a :: tl
    have h2 : ((fun i => (a :: tl).getD i d) ∘ Nat.succ) = (fun i => tl.getD i d) := rfl
    rw [h2, ih]
    rfl

theorem getElem?_eq_some_getD {α : Type} (d : α) :
    ∀ (l : List α) (i : ℕ), i < l.length → l[i]? = some (l.getD i d)
  | a :: l, 0, _ => by simp
  | a :: l, i + 1, h => by
      simpa using getElem?_eq_some_getD d l i (by simpa using h)
  | [], i, h => absurd h (by simp)

theorem getElem?_none_of_len_le {α : Type} :
    ∀ (l : List α) (i : ℕ), l.length ≤ i → l[i]? = none
  | [], _, _ => by simp
  | a :: l, i + 1, h => by
      simpa using getElem?_none_of_len_le l i (by simpa using h)
  | a :: l, 0, h => absurd h (by simp)

theorem getD_mem_of_lt {α : Type} (d : α) :
    ∀ (l : List α) (i : ℕ), i < l.length → l.getD i d ∈ l
  | a :: l, 0, _ => List.mem_cons_self a l
  | a :: l, i + 1, h => List.mem_cons_of_mem a (getD_mem_of_lt d l i (by simpa using h))
  | [], i, h => absurd h (by simp)

/-! ### Shape-mismatch behavior (C4) -/

/-- C4 counterexample: the empty query tensor of shape `[0, 3]` matches
neither encoding (its second dimension is below 5 and is not 6), yet
`parse_detr_output` silently returns the empty detection list instead of any
failure: the `for det in output` loop has nothing to iterate over. -/
theorem empty_mismatched_tensor_counterexample :
    parse_detr_output ⟨0, 3, fun _ _ => 0⟩ (1/4) (640, 640) none =
      Except.ok [] := rfl

/-- C4 amended: for every NONEMPTY tensor whose shape matches neither
encoding (second dimension at most 4, so no dense-grid `[N, 4+C]` with
`C ≥ 1` and no query-set `[N, 6]`), each parser surfaces a failure to the
caller — a raised IndexError/ValueError in the Python code, an `error` result
here; there is no typed `ShapeMismatch` value in the source.  The empty
(zero-row) mismatched tensor, however, is accepted by the query-set parser,
which silently returns `[]`.  For the dense-grid parser the tensor is
`[4 + num_classes, num_anchors]`-oriented, so "mismatched" reads
`m.n ≤ 4`. -/
theorem mismatched_shape_errors_when_nonempty (m : NpMat) (t it : ℚ)
    (ish : ℚ × ℚ) (osh : Option (ℚ × ℚ)) :
    (m.d ≤ 4 → 1 ≤ m.n → ∃ e, parse_detr_output m t ish osh = .error e) ∧
    (m.n ≤ 4 → 1 ≤ m.d → ∃ e, parse_yolo_output m t it ish osh = .error e) := by
  constructor
  · intro hd hn
    obtain ⟨k, hk⟩ : ∃ k, m.n = k + 1 :=
      ⟨m.n - 1, by omega⟩
    refine ⟨"index 4 is out of bounds", ?_⟩
    have hrow : ((List.range m.d).map (fun j => m.ent 0 j))[4]? = none := by
      apply getElem?_none_of_len_le
      simpa using hd
    unfold parse_detr_output matRows
    rw [hk, List.range_succ_eq_map, List.map_cons]
    simp only [detrGo, hrow]
  · intro hn hd
    obtain ⟨k, hk⟩ : ∃ k, m.d = k + 1 :=
      ⟨m.d - 1, by omega⟩
    refine ⟨"attempt to get argmax of an empty sequence", ?_⟩
    have hdrop : ((List.range m.n).map (fun i => m.ent i 0)).drop 4 = [] := by
      apply List.drop_eq_nil_of_le
      simpa using hn
    unfold parse_yolo_output matRowsT
    rw [hk, List.range_succ_eq_map, List.map_cons]
    simp only [yoloRowsInfo, hdrop, argmaxWithMax]

/-- Witness for C4 (amended): a nonempty `[1, 3]` tensor is rejected by the
query-set parser with an error. -/
theorem mismatched_shape_errors_when_nonempty_witness :
    ∃ e, parse_detr_output ⟨1, 3, fun _ _ => 0⟩ (1/4) (640, 640) none =
      .error e :=
  (mismatched_shape_errors_when_nonempty ⟨1, 3, fun _ _ => 0⟩ (1/4) (9/20)
      (640, 640) none).1 (by decide) (by decide)

/-! ### Parser characterizations -/

theorem sortDesc_length {α : Type} (key : α → ℚ) (l : List α) :
    (sortDesc key l).length = l.length :=
  (sortDesc_perm key l).length_eq

theorem getD_eq_dflt_of_le {α : Type} (d : α) :
    ∀ (l : List α) (i : ℕ), l.length ≤ i → l.getD i d = d
  | [], _, _ => by simp
  | a :: l, i + 1, h => getD_eq_dflt_of_le d l i (by simpa using h)
  | a :: l, 0, h => absurd h (by simp)

/-- A successful run of the query-set row loop keeps exactly the rows whose
confidence is not below the threshold, in order, each built by
`detrBuild`. -/
theorem detrGo_ok_characterization (t : ℚ) (ish : ℚ × ℚ)
    (osh : Option (ℚ × ℚ)) :
    ∀ (rows : List (List ℚ)) (res : List Det),
      detrGo t ish osh rows = .ok res →
      res = (rows.filter (fun r => ! (r.getD 4 0 < t))).map (detrBuild ish osh) := by
  intro rows
  induction rows with
  | nil =>
    intro res h
    simp only [detrGo, Except.ok.injEq] at h
    simp [← h]
  | cons r rest ih =>
    intro res h
    simp only [detrGo] at h
    split at h
    · exact Except.noConfusion h
    next c h4 =>
      have hlen4 : 4 < r.length := by
        by_contra hc
        push_neg at hc
        rw [getElem?_none_of_len_le r 4 hc] at h4
        cases h4
      have hc4 : r.getD 4 0 = c := by
        rw [getElem?_eq_some_getD 0 r 4 hlen4] at h4
        exact Option.some_inj.1 h4
      split at h
      next hlt =>
        have hres := ih res h
        have hpred : (! decide (r.getD 4 0 < t)) = false := by
          rw [hc4]
          simp [hlt]
        rw [hres, List.filter_cons, hpred]
        simp
      next hlt =>
        split at h
        · exact Except.noConfusion h
        next c5 h5 =>
          split at h
          · exact Except.noConfusion h
          next ds hrec =>
            simp only [Except.ok.injEq] at h
            have hres := ih ds hrec
            have hpred : (! decide (r.getD 4 0 < t)) = true := by
              rw [hc4]
              simp [hlt]
            rw [← h, hres, List.filter_cons, hpred]
            simp

/-- When the per-row reductions succeed, `parse_yolo_output` equals a
record-level greedy NMS over the confidence-sorted filtered candidates,
projecting out the detection of each kept candidate. -/
theorem parse_yolo_ok_eq (m : NpMat) (t it : ℚ) (ish : ℚ × ℚ)
    (osh : Option (ℚ × ℚ)) (infos : List YoloCand)
    (h : yoloRowsInfo (matRowsT m) = .ok infos) :
    parse_yolo_output m t it ish osh =
      .ok ((nmsGo Prod.fst it
          (sortDesc (fun p => p.2.confidence)
            ((infos.filter (fun c => t < c.confidence)).map (yoloPair ish osh))).length
          (sortDesc (fun p => p.2.confidence)
            ((infos.filter (fun c => t < c.confidence)).map (yoloPair ish osh)))).map
        Prod.snd) := by
  have cd : YoloCand := ⟨[], 0, 0⟩
  simp only [parse_yolo_output, h]
  set cands := infos.filter (fun c => t < c.confidence) with hcands
  set pairs := cands.map (yoloPair ish osh) with hpairs
  set keyP : BBox × Det → ℚ := fun p => p.2.confidence with hkeyP
  have hplen : pairs.length = cands.length := List.length_map _ _
  by_cases hlen : cands.length = 0
  · have hnil : cands = [] := List.length_eq_zero.1 hlen
    have hpnil : pairs = [] := by rw [hpairs, hnil]; rfl
    rw [if_pos hlen, hpnil]
    rfl
  · rw [if_neg hlen]
    set boxes := cands.map (fun c => cornerBox c.box4) with hboxes
    set confidences := cands.map (fun c => c.confidence) with hconf
    have hblen : boxes.length = cands.length := List.length_map _ _
    have hclen : confidences.length = cands.length := List.length_map _ _
    set pd : BBox × Det := (⟨0, 0, 0, 0⟩, ⟨0, 0, 0, 0, 0, 0⟩) with hpd
    set g : ℕ → BBox × Det := fun i => pairs.getD i pd with hg
    have hbox : ∀ i, (g i).1 = boxes.getD i ⟨0, 0, 0, 0⟩ := by
      intro i
      by_cases hi : i < cands.length
      · show (pairs.getD i pd).1 = boxes.getD i ⟨0, 0, 0, 0⟩
        have h1 : pairs.getD i pd = yoloPair ish osh (cands.getD i ⟨[], 0, 0⟩) := by
          rw [hpairs]
          exact getD_map_of_lt (yoloPair ish osh) pd ⟨[], 0, 0⟩ cands i hi
        have h2 : boxes.getD i ⟨0, 0, 0, 0⟩ =
            cornerBox ((cands.getD i ⟨[], 0, 0⟩).box4) := by
          rw [hboxes]
          exact getD_map_of_lt (fun c => cornerBox c.box4) ⟨0, 0, 0, 0⟩ ⟨[], 0, 0⟩ cands i hi
        rw [h1, h2]
        rfl
      · push_neg at hi
        show (pairs.getD i pd).1 = boxes.getD i ⟨0, 0, 0, 0⟩
        have h1 : pairs.getD i pd = pd :=
          getD_eq_dflt_of_le pd pairs i (by rw [hplen]; exact hi)
        have h2 : boxes.getD i ⟨0, 0, 0, 0⟩ = ⟨0, 0, 0, 0⟩ :=
          getD_eq_dflt_of_le ⟨0, 0, 0, 0⟩ boxes i (by rw [hblen]; exact hi)
        rw [h1, h2]
    have hkey : ∀ i ∈ List.range confidences.length,
        keyP (g i) = confidences.getD i 0 := by
      intro i hi
      have hi' : i < cands.length := by
        rw [← hclen]
        simpa using hi
      have h1 : pairs.getD i pd = yoloPair ish osh (cands.getD i ⟨[], 0, 0⟩) := by
        rw [hpairs]
        exact getD_map_of_lt (yoloPair ish osh) pd ⟨[], 0, 0⟩ cands i hi'
      have h2 : confidences.getD i 0 = (cands.getD i ⟨[], 0, 0⟩).confidence := by
        rw [hconf]
        exact getD_map_of_lt (fun c => c.confidence) 0 ⟨[], 0, 0⟩ cands i hi'
      show (pairs.getD i pd).2.confidence = confidences.getD i 0
      rw [h1, h2]
      rfl
    have hrange : (List.range confidences.length).map g = pairs := by
      rw [hg, hclen, ← hplen]
      exact map_getD_range pd pairs
    have hsortmap :
        (sortDesc (fun i => confidences.getD i 0) (List.range confidences.length)).map g =
          sortDesc keyP pairs := by
      rw [sortDesc_map (fun i => confidences.getD i 0) keyP g _ hkey, hrange]
    have hfuel : (argsortDesc confidences).length = (sortDesc keyP pairs).length := by
      rw [argsortDesc, sortDesc_length, sortDesc_length, List.length_range, hclen, hplen]
    have hmapnms :
        (nmsGo (fun i => boxes.getD i ⟨0, 0, 0, 0⟩) it (argsortDesc confidences).length
            (argsortDesc confidences)).map g =
          nmsGo Prod.fst it (sortDesc keyP pairs).length (sortDesc keyP pairs) := by
      rw [nmsGo_map (fun i => boxes.getD i ⟨0, 0, 0, 0⟩) Prod.fst g it
        (fun a => hbox a) (argsortDesc confidences).length (argsortDesc confidences)]
      rw [show (argsortDesc confidences).map g = sortDesc keyP pairs from hsortmap]
      rw [hfuel]
    have hsubeq : ∀ idx ∈ nms boxes confidences it,
        (let b := (boxes.map (scaleBox ish osh)).getD idx ⟨0, 0, 0, 0⟩
         (⟨b.x1, b.y1, b.x2, b.y2, confidences.getD idx 0,
          ((cands.getD idx ⟨[], 0, 0⟩).class_id : ℤ)⟩ : Det)) = (Prod.snd ∘ g) idx := by
      intro idx hidx
      have hidxlt : idx < cands.length := by
        have h1 : idx ∈ argsortDesc confidences :=
          nmsGo_subset (fun i => boxes.getD i ⟨0, 0, 0, 0⟩) it _ _ hidx
        have h2 : idx ∈ List.range confidences.length := by
          have := (mem_sortDesc (fun i => confidences.getD i 0)).1 h1
          simpa using this
        rw [← hclen]
        simpa using h2
      have hsc : (boxes.map (scaleBox ish osh)).getD idx ⟨0, 0, 0, 0⟩ =
          scaleBox ish osh (cornerBox ((cands.getD idx ⟨[], 0, 0⟩).box4)) := by
        rw [getD_map_of_lt (scaleBox ish osh) ⟨0, 0, 0, 0⟩ ⟨0, 0, 0, 0⟩ boxes idx
          (by rw [hblen]; exact hidxlt)]
        rw [hboxes]
        rw [getD_map_of_lt (fun c => cornerBox c.box4) ⟨0, 0, 0, 0⟩ ⟨[], 0, 0⟩ cands idx hidxlt]
      have hcf : confidences.getD idx 0 = (cands.getD idx ⟨[], 0, 0⟩).confidence := by
        rw [hconf]
        exact getD_map_of_lt (fun c => c.confidence) 0 ⟨[], 0, 0⟩ cands idx hidxlt
      have hpg : g idx = yoloPair ish osh (cands.getD idx ⟨[], 0, 0⟩) := by
        rw [hg, hpairs]
        exact getD_map_of_lt (yoloPair ish osh) pd ⟨[], 0, 0⟩ cands idx hidxlt
      simp only [Function.comp, hpg, hsc, hcf]
      rfl
    have hfinal : (nms boxes confidences it).map
          (fun idx =>
            let b := (boxes.map (scaleBox ish osh)).getD idx ⟨0, 0, 0, 0⟩
            (⟨b.x1, b.y1, b.x2, b.y2, confidences.getD idx 0,
              ((cands.getD idx ⟨[], 0, 0⟩).class_id : ℤ)⟩ : Det)) =
        (nmsGo Prod.fst it (sortDesc keyP pairs).length (sortDesc keyP pairs)).map
          Prod.snd := by
      rw [List.map_congr_left hsubeq]
      show ((nms boxes confidences it).map (Prod.snd ∘ g)) = _
      rw [← List.map_map]
      rw [show (nms boxes confidences it).map g =
        nmsGo Prod.fst it (sortDesc keyP pairs).length (sortDesc keyP pairs) from hmapnms]
    rw [← hfinal]

/-- When every row is long enough (the `[num_queries, 6]` shape), the
query-set loop succeeds and keeps exactly the rows whose confidence is not
below the threshold. -/
theorem detrGo_ok_of_long_rows (t : ℚ) (ish : ℚ × ℚ) (osh : Option (ℚ × ℚ)) :
    ∀ rows : List (List ℚ), (∀ r ∈ rows, 6 ≤ r.length) →
      detrGo t ish osh rows =
        .ok ((rows.filter (fun r => ! (r.getD 4 0 < t))).map (detrBuild ish osh)) := by
  intro rows
  induction rows with
  | nil => intro _; rfl
  | cons r rest ih =>
    intro hlen
    have hr : 6 ≤ r.length := hlen r (by simp)
    have h4 : r[4]? = some (r.getD 4 0) := getElem?_eq_some_getD 0 r 4 (by omega)
    have h5 : r[5]? = some (r.getD 5 0) := getElem?_eq_some_getD 0 r 5 (by omega)
    have hrest := ih (fun x hx => hlen x (by simp [hx]))
    have hstep : detrGo t ish osh (r :: rest) =
        (if r.getD 4 0 < t then detrGo t ish osh rest
         else
           match detrGo t ish osh rest with
           | .error e => .error e
           | .ok ds => .ok (detrBuild ish osh r :: ds)) := by
      simp only [detrGo, h4, h5]
    rw [hstep]
    by_cases hlt : r.getD 4 0 < t
    · rw [if_pos hlt, hrest]
      have hpred : (! decide (r.getD 4 0 < t)) = false := by
        rw [decide_eq_true hlt]
        rfl
      simp only [List.filter_cons, hpred, Bool.false_eq_true, if_false]
    · rw [if_neg hlt, hrest]
      have hpred : (! decide (r.getD 4 0 < t)) = true := by
        rw [decide_eq_false hlt]
        rfl
      simp only [List.filter_cons, hpred, if_true, List.map_cons]

/-- C8: on a `[num_queries, 6]` query-set tensor, `parse_detr_output` returns
exactly the rows whose confidence is not below `conf_threshold` (a row with
confidence equal to the threshold is kept), each with the optional rescale
applied, and with no NMS — the result is literally the filter of the rows
mapped through `detrBuild`.  Meanwhile every detection produced by the
dense-grid path `parse_yolo_output` has confidence strictly greater than
`conf_threshold`. -/
theorem queryset_inclusive_densegrid_strict_threshold (m : NpMat) (t it : ℚ)
    (ish : ℚ × ℚ) (osh : Option (ℚ × ℚ)) :
    (m.d = 6 →
      parse_detr_output m t ish osh =
        .ok (((matRows m).filter (fun r => ! (r.getD 4 0 < t))).map
          (detrBuild ish osh))) ∧
    (∀ l, parse_yolo_output m t it ish osh = .ok l →
      ∀ dct ∈ l, t < dct.confidence) := by
  constructor
  · intro hd
    apply detrGo_ok_of_long_rows
    intro r hr
    obtain ⟨i, _, hri⟩ := List.mem_map.1 hr
    rw [← hri]
    simp [hd]
  · intro l hok dct hdct
    cases hinfo : yoloRowsInfo (matRowsT m) with
    | error e =>
      simp only [parse_yolo_output, hinfo] at hok
      exact Except.noConfusion hok
    | ok infos =>
      rw [parse_yolo_ok_eq m t it ish osh infos hinfo] at hok
      simp only [Except.ok.injEq] at hok
      subst hok
      obtain ⟨p, hp, hpd⟩ := List.mem_map.1 hdct
      have hp2 := nmsGo_subset Prod.fst it _ _ hp
      have hp3 : p ∈ (infos.filter (fun c => t < c.confidence)).map (yoloPair ish osh) :=
        (mem_sortDesc _).1 hp2
      obtain ⟨c, hc, hcp⟩ := List.mem_map.1 hp3
      have ht : t < c.confidence := by
        have := List.of_mem_filter hc
        simpa using this
      rw [← hpd, ← hcp]
      exact ht

/-- Witness for C8: on `detrSample` with `conf_threshold = 0.5`, the row with
confidence exactly `0.5` is kept; on `yoloSample` the single produced
detection has confidence `0.9 > 0.25`. -/
theorem queryset_inclusive_densegrid_strict_threshold_witness :
    parse_detr_output detrSample (1/2) (640, 640) none =
      .ok (((matRows detrSample).filter
          (fun r => ! (r.getD 4 0 < (1/2 : ℚ)))).map (detrBuild (640, 640) none)) ∧
    (1/4 : ℚ) < (Det.mk 0 0 2 2 (9/10) 0).confidence :=
  ⟨(queryset_inclusive_densegrid_strict_threshold detrSample (1/2) (9/20)
      (640, 640) none).1 rfl,
   (queryset_inclusive_densegrid_strict_threshold yoloSample (1/4) (9/20)
      (640, 640) none).2 [⟨0, 0, 2, 2, 9/10, 0⟩]
    (by with_unfolding_all decide) ⟨0, 0, 2, 2, 9/10, 0⟩ (by simp)⟩

/-- C5: lowering the confidence threshold can only add detections.  For
`t1 < t2` every detection decoded at threshold `t2` is also decoded at
threshold `t1`, on both the dense-grid (YOLO + NMS) path and the query-set
path.  On the YOLO path this holds because the candidates added by the lower
threshold all score at most `t2`, hence sort strictly after every candidate of
the `t2` run, so the greedy NMS run at `t1` begins with exactly the `t2`
run. -/
theorem decode_threshold_monotone (m : NpMat) (t1 t2 it : ℚ)
    (ish : ℚ × ℚ) (osh : Option (ℚ × ℚ)) (ht : t1 < t2) :
    (∀ l1 l2, parse_yolo_output m t1 it ish osh = .ok l1 →
      parse_yolo_output m t2 it ish osh = .ok l2 → ∀ dct ∈ l2, dct ∈ l1) ∧
    (∀ l1 l2, parse_detr_output m t1 ish osh = .ok l1 →
      parse_detr_output m t2 ish osh = .ok l2 → ∀ dct ∈ l2, dct ∈ l1) := by
  constructor
  · intro l1 l2 h1 h2 dct hdct
    cases hinfo : yoloRowsInfo (matRowsT m) with
    | error e =>
      simp only [parse_yolo_output, hinfo] at h1
      exact Except.noConfusion h1
    | ok infos =>
      rw [parse_yolo_ok_eq m t1 it ish osh infos hinfo] at h1
      rw [parse_yolo_ok_eq m t2 it ish osh infos hinfo] at h2
      simp only [Except.ok.injEq] at h1 h2
      subst h1
      subst h2
      have hfilters :
          (infos.filter (fun c => t2 < c.confidence)).map (yoloPair ish osh) =
            ((infos.filter (fun c => t1 < c.confidence)).map (yoloPair ish osh)).filter
              (fun p => t2 < p.2.confidence) := by
        rw [List.filter_map]
        congr 1
        rw [List.filter_filter]
        apply List.filter_congr
        intro c _
        by_cases hc : t2 < c.confidence
        · have hc1 : t1 < c.confidence := lt_trans ht hc
          have e1 : ((fun p : BBox × Det => decide (t2 < p.2.confidence)) ∘
              yoloPair ish osh) c = true := by
            simpa using hc
          rw [Function.comp] at e1
          simp [hc, hc1, e1]
        · have e1 : ((fun p : BBox × Det => decide (t2 < p.2.confidence)) ∘
              yoloPair ish osh) c = false := by
            simpa using hc
          rw [Function.comp] at e1
          simp [hc, e1]
      have hsep : ∀ a ∈ (infos.filter (fun c => t1 < c.confidence)).map (yoloPair ish osh),
          ∀ b ∈ (infos.filter (fun c => t1 < c.confidence)).map (yoloPair ish osh),
          (fun p : BBox × Det => decide (t2 < p.2.confidence)) a = true →
          (fun p : BBox × Det => decide (t2 < p.2.confidence)) b = false →
          (fun p : BBox × Det => p.2.confidence) b <
            (fun p : BBox × Det => p.2.confidence) a := by
        intro a _ b _ hPa hPb
        have h1a : t2 < a.2.confidence := by simpa using hPa
        have h1b : ¬ t2 < b.2.confidence := by simpa using hPb
        exact lt_of_le_of_lt (le_of_not_lt h1b) h1a
      have hsplit := sortDesc_filter_split (fun p : BBox × Det => p.2.confidence)
        (fun p : BBox × Det => t2 < p.2.confidence)
        ((infos.filter (fun c => t1 < c.confidence)).map (yoloPair ish osh)) hsep
      obtain ⟨tail, htail⟩ := nmsGo_append Prod.fst it
        (sortDesc (fun p : BBox × Det => p.2.confidence)
          (((infos.filter (fun c => t1 < c.confidence)).map (yoloPair ish osh)).filter
            (fun p => t2 < p.2.confidence)))
        (sortDesc (fun p : BBox × Det => p.2.confidence)
          (((infos.filter (fun c => t1 < c.confidence)).map (yoloPair ish osh)).filter
            (fun p => ! (t2 < p.2.confidence))))
      rw [hsplit, htail, List.map_append]
      apply List.mem_append_left
      rw [hfilters] at hdct
      exact hdct
  · intro l1 l2 h1 h2 dct hdct
    have h1' : detrGo t1 ish osh (matRows m) = .ok l1 := h1
    have h2' : detrGo t2 ish osh (matRows m) = .ok l2 := h2
    have hc1 := detrGo_ok_characterization t1 ish osh (matRows m) l1 h1'
    have hc2 := detrGo_ok_characterization t2 ish osh (matRows m) l2 h2'
    subst hc1
    subst hc2
    obtain ⟨r, hr, hrd⟩ := List.mem_map.1 hdct
    have hrmem := List.mem_of_mem_filter hr
    have hrp := List.of_mem_filter hr
    have hkeep1 : (! decide (r.getD 4 0 < t1)) = true := by
      have hnot2 : ¬ r.getD 4 0 < t2 := by simpa using hrp
      have hnot1 : ¬ r.getD 4 0 < t1 := fun hc => hnot2 (lt_trans hc ht)
      rw [decide_eq_false hnot1]
      rfl
    exact List.mem_map.2 ⟨r, List.mem_filter.2 ⟨hrmem, hkeep1⟩, hrd⟩

/-- Witness for C5 on `yoloSample` with thresholds `0.25 < 0.6`: both runs
decode the same single detection, which is therefore in both lists. -/
theorem decode_threshold_monotone_witness :
    (⟨0, 0, 2, 2, 9/10, 0⟩ : Det) ∈ [(⟨0, 0, 2, 2, 9/10, 0⟩ : Det)] :=
  (decode_threshold_monotone yoloSample (1/4) (3/5) (9/20) (640, 640) none
      (by with_unfolding_all decide)).1
    [⟨0, 0, 2, 2, 9/10, 0⟩] [⟨0, 0, 2, 2, 9/10, 0⟩]
    (by with_unfolding_all decide) (by with_unfolding_all decide)
    ⟨0, 0, 2, 2, 9/10, 0⟩ (by simp)
